import Mathlib

/-!
Verification of the distributed domain-decomposed DFS engine
(`src/weak_scaling.cpp`) against its natural-language specification.

The C++ code is shallowly embedded: pure functions become Lean functions
over `Nat`; the mutable traversal state (visited array, result vector,
boundary set, found flag) becomes an explicit `DFSState` record threaded
through the recursion; the recursive `localDFS` is given an explicit fuel
argument (the C++ recursion has no fuel, so properties are stated for all
fuel values, or at sufficient fuel for concrete runs); MPI messaging is
modelled by computing each worker's send buffers as pure data and wiring
worker `src`'s buffer for `dst` into worker `dst`'s receive buffers.
-/

namespace WeakScaling

/-- Mirror of `struct DomainInfo` from weak_scaling.cpp. -/
structure DomainInfo where
  rank : ℕ
  numRanks : ℕ
  startVertex : ℕ
  endVertex : ℕ
  localSize : ℕ
deriving Repr, DecidableEq

/-- Mirror of `setupDomain(int totalVertices, int rank, int numRanks)`:
block partitioning with the first `remainder` ranks receiving one extra
vertex. -/
def setupDomain (totalVertices rank numRanks : ℕ) : DomainInfo :=
  let baseSize := totalVertices / numRanks
  let remainder := totalVertices % numRanks
  if rank < remainder then
    let localSize := baseSize + 1
    let startVertex := rank * localSize
    { rank := rank, numRanks := numRanks, startVertex := startVertex,
      endVertex := startVertex + localSize, localSize := localSize }
  else
    let localSize := baseSize
    let startVertex := remainder * (baseSize + 1) + (rank - remainder) * baseSize
    { rank := rank, numRanks := numRanks, startVertex := startVertex,
      endVertex := startVertex + localSize, localSize := localSize }

/-- Mirror of `isLocalVertex(int vertex, const DomainInfo&)`. -/
def isLocalVertex (vertex : ℕ) (domain : DomainInfo) : Bool :=
  domain.startVertex ≤ vertex && vertex < domain.endVertex

/-- Mirror of `findOwnerRank(int vertex, int totalVertices, int numRanks)`.
In Lean, `Nat` division by zero yields 0; `findOwnerRankChecked` below
tracks where the C++ code would actually divide by zero. -/
def findOwnerRank (vertex totalVertices numRanks : ℕ) : ℕ :=
  let baseSize := totalVertices / numRanks
  let remainder := totalVertices % numRanks
  let threshold := remainder * (baseSize + 1)
  if vertex < threshold then
    vertex / (baseSize + 1)
  else
    remainder + (vertex - threshold) / baseSize

/-- Variant of `findOwnerRank` returning `none` exactly when the C++ code
would divide by zero (either `numRanks = 0`, or the else-branch running
with `baseSize = 0`). -/
def findOwnerRankChecked (vertex totalVertices numRanks : ℕ) : Option ℕ :=
  if numRanks = 0 then none else
  let baseSize := totalVertices / numRanks
  let remainder := totalVertices % numRanks
  let threshold := remainder * (baseSize + 1)
  if vertex < threshold then
    some (vertex / (baseSize + 1))
  else if baseSize = 0 then none
  else
    some (remainder + (vertex - threshold) / baseSize)

/-!
Arithmetic helper development.  `startBR` and `ownerBR` are the start
vertex and the owner rank expressed through the quotient `b` and the
remainder `r` of `totalVertices / numRanks`; the lemmas are proved for
arbitrary `b`, `r` satisfying `totalVertices = numRanks * b + r` and then
instantiated.
-/

/-- Start vertex of a rank's range, parameterized by quotient `b` and
remainder `r`. -/
def startBR (b r rank : ℕ) : ℕ :=
  if rank < r then rank * (b + 1) else r * (b + 1) + (rank - r) * b

/-- Owner rank of a vertex, parameterized by quotient `b` and remainder
`r`. -/
def ownerBR (b r v : ℕ) : ℕ :=
  if v < r * (b + 1) then v / (b + 1) else r + (v - r * (b + 1)) / b

lemma setupDomain_rank (tV rank nR : ℕ) : (setupDomain tV rank nR).rank = rank := by
  simp only [setupDomain]; split <;> rfl

lemma setupDomain_numRanks (tV rank nR : ℕ) :
    (setupDomain tV rank nR).numRanks = nR := by
  simp only [setupDomain]; split <;> rfl

lemma setupDomain_startVertex (tV rank nR : ℕ) :
    (setupDomain tV rank nR).startVertex = startBR (tV / nR) (tV % nR) rank := by
  simp only [setupDomain, startBR]; split <;> rfl

lemma setupDomain_localSize (tV rank nR : ℕ) :
    (setupDomain tV rank nR).localSize =
      if rank < tV % nR then tV / nR + 1 else tV / nR := by
  simp only [setupDomain]; split <;> simp_all

lemma setupDomain_endVertex (tV rank nR : ℕ) :
    (setupDomain tV rank nR).endVertex =
      (setupDomain tV rank nR).startVertex + (setupDomain tV rank nR).localSize := by
  simp only [setupDomain]; split <;> rfl

lemma findOwnerRank_eq_ownerBR (v tV nR : ℕ) :
    findOwnerRank v tV nR = ownerBR (tV / nR) (tV % nR) v := rfl

/-- Stepping the start formula by one rank adds that rank's size. -/
lemma startBR_succ (b r rank : ℕ) :
    startBR b r (rank + 1) = startBR b r rank + (if rank < r then b + 1 else b) := by
  unfold startBR
  by_cases h : rank < r
  · by_cases h2 : rank + 1 < r
    · simp only [if_pos h, if_pos h2]; ring
    · have heq : r = rank + 1 := by omega
      subst heq
      simp only [if_neg h2, if_pos h]
      have e : rank + 1 - (rank + 1) = 0 := by omega
      rw [e]
      ring
  · have h2 : ¬ rank + 1 < r := by omega
    simp only [if_neg h, if_neg h2]
    obtain ⟨k, rfl⟩ : ∃ k, rank = r + k := ⟨rank - r, by omega⟩
    have e1 : r + k - r = k := by omega
    have e2 : r + k + 1 - r = k + 1 := by omega
    rw [e1, e2]
    ring

lemma startBR_mono_succ (b r rank : ℕ) :
    startBR b r rank ≤ startBR b r (rank + 1) := by
  rw [startBR_succ]; split <;> omega

lemma startBR_mono (b r : ℕ) {r1 r2 : ℕ} (h : r1 ≤ r2) :
    startBR b r r1 ≤ startBR b r r2 := by
  induction r2 with
  | zero =>
    have : r1 = 0 := by omega
    subst this; rfl
  | succ n ih =>
    rcases Nat.lt_or_ge r1 (n + 1) with h2 | h2
    · exact le_trans (ih (by omega)) (startBR_mono_succ b r n)
    · have : r1 = n + 1 := by omega
      subst this; rfl

lemma startBR_zero (b r : ℕ) : startBR b r 0 = 0 := by
  unfold startBR
  by_cases h : 0 < r
  · simp [if_pos h]
  · have : r = 0 := by omega
    subst this
    simp

/-- The start formula evaluated at `numRanks` gives `totalVertices`. -/
lemma startBR_top (b r nR tV : ℕ) (hdm : nR * b + r = tV) (hr : r < nR) :
    startBR b r nR = tV := by
  unfold startBR
  simp only [if_neg (by omega : ¬ nR < r)]
  obtain ⟨k, rfl⟩ : ∃ k, nR = r + k := ⟨nR - r, by omega⟩
  have e : r + k - r = k := by omega
  rw [e]
  have : r * (b + 1) + k * b = (r + k) * b + r := by ring
  omega

/-- Every vertex below `totalVertices` lies inside the range of the rank
`ownerBR` assigns it. -/
lemma mem_own_BR (b r nR tV v : ℕ) (hdm : nR * b + r = tV) (hr : r < nR)
    (hv : v < tV) :
    startBR b r (ownerBR b r v) ≤ v ∧ v < startBR b r (ownerBR b r v + 1) := by
  unfold ownerBR
  by_cases hth : v < r * (b + 1)
  · simp only [if_pos hth]
    set q := v / (b + 1) with hq
    have hql : q * (b + 1) ≤ v := Nat.div_mul_le_self v (b + 1)
    have hqu : v < (q + 1) * (b + 1) :=
      (Nat.div_lt_iff_lt_mul (by omega)).mp (Nat.lt_succ_self _)
    have hqr : q < r := by
      rw [hq]; exact (Nat.div_lt_iff_lt_mul (by omega)).mpr hth
    rw [startBR_succ]
    unfold startBR
    simp only [if_pos hqr]
    have hb1 : (q + 1) * (b + 1) = q * (b + 1) + (b + 1) := by ring
    omega
  · simp only [if_neg hth]
    have hb0 : 0 < b := by
      rcases Nat.eq_zero_or_pos b with h0 | h0
      · exfalso
        rw [h0] at hth hdm
        have : r * (0 + 1) = r := by ring
        omega
      · exact h0
    have hql : (v - r * (b + 1)) / b * b ≤ v - r * (b + 1) :=
      Nat.div_mul_le_self _ b
    have hqu : v - r * (b + 1) < ((v - r * (b + 1)) / b + 1) * b :=
      (Nat.div_lt_iff_lt_mul hb0).mp (Nat.lt_succ_self _)
    generalize (v - r * (b + 1)) / b = q at hql hqu ⊢
    rw [startBR_succ]
    unfold startBR
    simp only [if_neg (Nat.not_lt.mpr (Nat.le_add_right r q))]
    have e : r + q - r = q := by omega
    rw [e]
    have hb1 : (q + 1) * b = q * b + b := by ring
    omega

/-- The owner rank computed by `ownerBR` is below `numRanks`. -/
lemma ownerBR_lt (b r nR tV v : ℕ) (hdm : nR * b + r = tV) (hr : r < nR)
    (hv : v < tV) : ownerBR b r v < nR := by
  unfold ownerBR
  by_cases hth : v < r * (b + 1)
  · simp only [if_pos hth]
    have : v / (b + 1) < r := (Nat.div_lt_iff_lt_mul (by omega)).mpr hth
    omega
  · simp only [if_neg hth]
    have hb0 : 0 < b := by
      rcases Nat.eq_zero_or_pos b with h0 | h0
      · exfalso
        rw [h0] at hth hdm
        have : r * (0 + 1) = r := by ring
        omega
      · exact h0
    obtain ⟨k, rfl⟩ : ∃ k, nR = r + k := ⟨nR - r, by omega⟩
    have hexp : (r + k) * b = r * b + k * b := by ring
    have hexp2 : r * (b + 1) = r * b + r := by ring
    have hsub : v - r * (b + 1) < k * b := by omega
    have : (v - r * (b + 1)) / b < k := (Nat.div_lt_iff_lt_mul hb0).mpr hsub
    omega

/-- A vertex inside a rank's half-open range is assigned to that rank by
`ownerBR`. -/
lemma owner_of_mem_BR (b r v rank : ℕ)
    (hlo : startBR b r rank ≤ v) (hhi : v < startBR b r (rank + 1)) :
    ownerBR b r v = rank := by
  rw [startBR_succ] at hhi
  unfold startBR at hlo hhi
  unfold ownerBR
  by_cases hcase : rank < r
  · simp only [if_pos hcase] at hlo hhi
    have hhi' : v < (rank + 1) * (b + 1) := by
      have : (rank + 1) * (b + 1) = rank * (b + 1) + (b + 1) := by ring
      omega
    have hth : v < r * (b + 1) := by
      have : (rank + 1) * (b + 1) ≤ r * (b + 1) :=
        Nat.mul_le_mul_right _ (by omega)
      omega
    simp only [if_pos hth]
    exact Nat.div_eq_of_lt_le (by omega) hhi'
  · simp only [if_neg hcase] at hlo hhi
    obtain ⟨k, rfl⟩ : ∃ k, rank = r + k := ⟨rank - r, by omega⟩
    have e : r + k - r = k := by omega
    rw [e] at hlo hhi
    have hb0 : 0 < b := by
      rcases Nat.eq_zero_or_pos b with h0 | h0
      · exfalso; rw [h0] at hlo hhi; simp at hlo hhi; omega
      · exact h0
    have hth : ¬ v < r * (b + 1) := by omega
    simp only [if_neg hth]
    have hlo2 : k * b ≤ v - r * (b + 1) := by omega
    have hhi2 : v - r * (b + 1) < (k + 1) * b := by
      have : (k + 1) * b = k * b + b := by ring
      omega
    rw [Nat.div_eq_of_lt_le hlo2 hhi2]

/-! Instantiations of the generic lemmas at `b = tV / nR`, `r = tV % nR`. -/

lemma mem_own (tV nR v : ℕ) (hn : 1 ≤ nR) (hv : v < tV) :
    startBR (tV / nR) (tV % nR) (findOwnerRank v tV nR) ≤ v ∧
      v < startBR (tV / nR) (tV % nR) (findOwnerRank v tV nR + 1) := by
  rw [findOwnerRank_eq_ownerBR]
  exact mem_own_BR (tV / nR) (tV % nR) nR tV v (Nat.div_add_mod tV nR)
    (Nat.mod_lt _ hn) hv

lemma findOwnerRank_lt (tV nR v : ℕ) (hn : 1 ≤ nR) (hv : v < tV) :
    findOwnerRank v tV nR < nR := by
  rw [findOwnerRank_eq_ownerBR]
  exact ownerBR_lt (tV / nR) (tV % nR) nR tV v (Nat.div_add_mod tV nR)
    (Nat.mod_lt _ hn) hv

/-! Claim theorems for the partition calculator. -/

/-- C1: for `numWorkers ≥ 1`, `rank < numWorkers` and `v < totalVertices`,
`findOwnerRank v = rank` holds if and only if `v` lies in the half-open
range `[startVertex, endVertex)` of `setupDomain totalVertices rank
numWorkers`: the forward partition and the inverse owner lookup agree on
the owner of every vertex. -/
theorem owner_lookup_roundtrip (totalVertices numWorkers rank v : ℕ)
    (hn : 1 ≤ numWorkers) (hrank : rank < numWorkers) (hv : v < totalVertices) :
    findOwnerRank v totalVertices numWorkers = rank ↔
      ((setupDomain totalVertices rank numWorkers).startVertex ≤ v ∧
        v < (setupDomain totalVertices rank numWorkers).endVertex) := by
  clear hrank
  rw [setupDomain_endVertex, setupDomain_startVertex, setupDomain_localSize]
  have hend : startBR (totalVertices / numWorkers) (totalVertices % numWorkers) rank +
      (if rank < totalVertices % numWorkers
        then totalVertices / numWorkers + 1 else totalVertices / numWorkers) =
      startBR (totalVertices / numWorkers) (totalVertices % numWorkers) (rank + 1) :=
    (startBR_succ _ _ rank).symm
  constructor
  · intro h
    have := mem_own totalVertices numWorkers v hn hv
    rw [h] at this
    omega
  · intro ⟨h1, h2⟩
    rw [findOwnerRank_eq_ownerBR]
    exact owner_of_mem_BR _ _ v rank h1 (by omega)

/-- C1 witness: concrete instance with 10 vertices, 3 workers, rank 1,
vertex 5. -/
theorem owner_lookup_roundtrip_witness :
    findOwnerRank 5 10 3 = 1 ↔
      ((setupDomain 10 1 3).startVertex ≤ 5 ∧ 5 < (setupDomain 10 1 3).endVertex) :=
  owner_lookup_roundtrip 10 3 1 5 (by decide) (by decide) (by decide)

/-- C2: for `numWorkers ≥ 1`, `setupDomain` gives the first `remainder`
ranks `base+1` vertices and the rest `base` vertices, and the ranges tile
`[0, totalVertices)`: rank 0 starts at 0, each rank's end is the next
rank's start, the last rank ends at `totalVertices`, ranges of distinct
ranks are disjoint, and every vertex below `totalVertices` lies in some
rank's range. -/
theorem setupDomain_tiles (totalVertices numWorkers : ℕ) (hn : 1 ≤ numWorkers) :
    (∀ rank, (setupDomain totalVertices rank numWorkers).localSize =
        if rank < totalVertices % numWorkers
        then totalVertices / numWorkers + 1 else totalVertices / numWorkers) ∧
    (setupDomain totalVertices 0 numWorkers).startVertex = 0 ∧
    (∀ rank, rank + 1 < numWorkers →
      (setupDomain totalVertices rank numWorkers).endVertex =
        (setupDomain totalVertices (rank + 1) numWorkers).startVertex) ∧
    (setupDomain totalVertices (numWorkers - 1) numWorkers).endVertex = totalVertices ∧
    (∀ r1 r2, r1 < r2 → r2 < numWorkers →
      (setupDomain totalVertices r1 numWorkers).endVertex ≤
        (setupDomain totalVertices r2 numWorkers).startVertex) ∧
    (∀ v, v < totalVertices → ∃ rank, rank < numWorkers ∧
      (setupDomain totalVertices rank numWorkers).startVertex ≤ v ∧
      v < (setupDomain totalVertices rank numWorkers).endVertex) := by
  have hendBR : ∀ rank, (setupDomain totalVertices rank numWorkers).endVertex =
      startBR (totalVertices / numWorkers) (totalVertices % numWorkers) (rank + 1) := by
    intro rank
    rw [setupDomain_endVertex, setupDomain_startVertex, setupDomain_localSize,
      startBR_succ]
  refine ⟨fun rank => setupDomain_localSize totalVertices rank numWorkers,
    ?_, ?_, ?_, ?_, ?_⟩
  · rw [setupDomain_startVertex]; exact startBR_zero _ _
  · intro rank _
    rw [hendBR, setupDomain_startVertex]
  · rw [hendBR]
    have e : numWorkers - 1 + 1 = numWorkers := by omega
    rw [e]
    exact startBR_top _ _ numWorkers totalVertices (Nat.div_add_mod _ _)
      (Nat.mod_lt _ hn)
  · intro r1 r2 h1 h2
    rw [hendBR, setupDomain_startVertex]
    exact startBR_mono _ _ (by omega)
  · intro v hv
    refine ⟨findOwnerRank v totalVertices numWorkers,
      findOwnerRank_lt totalVertices numWorkers v hn hv, ?_, ?_⟩
    · rw [setupDomain_startVertex]
      exact (mem_own totalVertices numWorkers v hn hv).1
    · rw [hendBR]
      exact (mem_own totalVertices numWorkers v hn hv).2

/-- C2 witness: concrete instance with 10 vertices and 3 workers. -/
theorem setupDomain_tiles_witness :
    (setupDomain 10 0 3).startVertex = 0 ∧ (setupDomain 10 2 3).endVertex = 10 :=
  ⟨(setupDomain_tiles 10 3 (by decide)).2.1,
    (setupDomain_tiles 10 3 (by decide)).2.2.2.1⟩

/-- C10: for `numWorkers ≥ 1` and `v < totalVertices`, `findOwnerRank`
never divides by zero (the checked variant returns `some`) and the
returned rank is below `numWorkers`. -/
theorem findOwnerRank_safe (totalVertices numWorkers v : ℕ)
    (hn : 1 ≤ numWorkers) (hv : v < totalVertices) :
    findOwnerRankChecked v totalVertices numWorkers =
        some (findOwnerRank v totalVertices numWorkers) ∧
      findOwnerRank v totalVertices numWorkers < numWorkers := by
  refine ⟨?_, findOwnerRank_lt totalVertices numWorkers v hn hv⟩
  simp only [findOwnerRankChecked, findOwnerRank]
  have hn0 : ¬ numWorkers = 0 := by omega
  simp only [if_neg hn0]
  have hdm : numWorkers * (totalVertices / numWorkers) + totalVertices % numWorkers
      = totalVertices := Nat.div_add_mod totalVertices numWorkers
  by_cases hth : v < totalVertices % numWorkers * (totalVertices / numWorkers + 1)
  · simp [if_pos hth]
  · have hb0 : ¬ totalVertices / numWorkers = 0 := by
      intro h0
      rw [h0] at hth hdm
      have : totalVertices % numWorkers * (0 + 1) = totalVertices % numWorkers := by
        ring
      omega
    simp [if_neg hth, if_neg hb0]

/-- C10 witness: 2 vertices across 5 workers (`baseSize = 0`), vertex 1. -/
theorem findOwnerRank_safe_witness :
    findOwnerRankChecked 1 2 5 = some (findOwnerRank 1 2 5) ∧ findOwnerRank 1 2 5 < 5 :=
  findOwnerRank_safe 2 5 1 (by decide) (by decide)

/-!
Embedding of the traversal engine.  The graph is the C++
`vector<vector<int>> adj`; `DFSState` packages the mutable arguments of
`localDFS` (`visited`, `localResult`, the insert-only boundary set, and
the `found` flag).  The busy-work loop of `localDFS` (lines 70-73) only
burns time and is omitted.
-/

/-- Adjacency-list graph, one list of neighbor ids per vertex. -/
abbrev Graph := List (List ℕ)

/-- Mirror of `adj[v]`; out-of-range reads (which C++ never performs on
the paths modelled here) give the empty list. -/
def neighbors (adj : Graph) (v : ℕ) : List ℕ := adj.getD v []

/-- Well-formed graph: every adjacency id is a valid vertex id. -/
def WF (adj : Graph) : Prop := ∀ l ∈ adj, ∀ v ∈ l, v < adj.length

/-- The mutable state threaded through `localDFS`: the `visited` array
(as the set of true indices), the `localResult` vector, the insert-only
boundary set argument, and the by-reference `found` flag. -/
structure DFSState where
  visited : Finset ℕ
  result : List ℕ
  bnd : Finset ℕ
  found : Bool
deriving DecidableEq

/-- Fresh state at the start of `dfs_mpi_with_overlap`. -/
def initState : DFSState := ⟨∅, [], ∅, false⟩

/-- The neighbor loop of `localDFS`, abstracted over the recursive call
`g` (which will be `localDFS` at one fuel unit less): recurse into
unvisited local neighbors (propagating an early `true` return), record
non-local neighbors into the boundary set. -/
def dfsNeighborsAux (g : DFSState → ℕ → DFSState × Bool) (domain : DomainInfo) :
    List ℕ → DFSState → DFSState × Bool
  | [], st => (st, false)
  | n :: rest, st =>
    if isLocalVertex n domain then
      if n ∈ st.visited then dfsNeighborsAux g domain rest st
      else
        match g st n with
        | (st2, true) => (st2, true)
        | (st2, false) => dfsNeighborsAux g domain rest st2
    else
      dfsNeighborsAux g domain rest { st with bnd := insert n st.bnd }

/-- Mirror of `localDFS(adj, visited, vertex, localResult,
boundaryVertices, domain, target, found)`.  `fuel` bounds the recursion
depth (the C++ recursion is unbounded); all general theorems hold for
every fuel value and concrete runs use sufficient fuel. -/
def localDFS (adj : Graph) (domain : DomainInfo) (target : ℕ) :
    ℕ → DFSState → ℕ → DFSState × Bool
  | 0, st, _ => (st, false)
  | fuel + 1, st, vertex =>
    if vertex ∈ st.visited then (st, false)
    else
      let st1 : DFSState :=
        { st with visited := insert vertex st.visited,
                  result := st.result ++ [vertex] }
      if vertex = target then ({ st1 with found := true }, true)
      else
        dfsNeighborsAux (localDFS adj domain target fuel) domain
          (neighbors adj vertex) st1

/-- The neighbor loop at a given fuel level. -/
def dfsNeighbors (adj : Graph) (domain : DomainInfo) (target fuel : ℕ)
    (ns : List ℕ) (st : DFSState) : DFSState × Bool :=
  dfsNeighborsAux (localDFS adj domain target fuel) domain ns st

/-- Mirror of `isBoundaryVertex(int vertex, const vector<vector<int>>&,
const DomainInfo&)`. -/
def isBoundaryVertex (vertex : ℕ) (adj : Graph) (domain : DomainInfo) : Bool :=
  isLocalVertex vertex domain &&
    (neighbors adj vertex).any (fun n => !isLocalVertex n domain)

/-- The owned vertex range `[startVertex, endVertex)` in ascending order
(the loop at line 113). -/
def domainVertices (domain : DomainInfo) : List ℕ :=
  List.range' domain.startVertex (domain.endVertex - domain.startVertex)

/-- Mirror of `localBoundaryVertices` (owned vertices classified as
boundary, ascending). -/
def localBoundaryVertices (adj : Graph) (domain : DomainInfo) : List ℕ :=
  (domainVertices domain).filter (fun v => isBoundaryVertex v adj domain)

/-- Mirror of `interiorVertices` (owned vertices classified as interior,
ascending). -/
def interiorVertices (adj : Graph) (domain : DomainInfo) : List ℕ :=
  (domainVertices domain).filter (fun v => !isBoundaryVertex v adj domain)

/-- Mirror of `std::set<int>::insert` on a strictly ascending list. -/
def setInsert (x : ℕ) : List ℕ → List ℕ
  | [] => [x]
  | y :: ys => if x < y then x :: y :: ys else if x = y then y :: ys else y :: setInsert x ys

/-- Mirror of `externalVerticesSet` (lines 134-141): the non-local
neighbors of boundary vertices, collected into an ordered set. -/
def externalVertices (adj : Graph) (domain : DomainInfo) : List ℕ :=
  ((localBoundaryVertices adj domain).flatMap
    (fun v => (neighbors adj v).filter (fun n => !isLocalVertex n domain))).foldl
    (fun s n => setInsert n s) []

/-- Mirror of `sendBuffers[dst]` (lines 143-151): external vertices owned
by `dst`, in ascending order; empty for the worker's own rank. -/
def sendBufferFor (adj : Graph) (domain : DomainInfo) (dst : ℕ) : List ℕ :=
  if dst = domain.rank then []
  else (externalVertices adj domain).filter
    (fun v => findOwnerRank v adj.length domain.numRanks == dst)

/-- One point-to-point message: destination rank, MPI tag, integer
payload.  A count message is `⟨dst, 0, [size]⟩`, a payload message is
`⟨dst, 1, buffer⟩` (lines 153-168). -/
structure Msg where
  dst : ℕ
  tag : ℕ
  data : List ℕ
deriving Repr, DecidableEq

/-- The messages a worker posts in the announce phase, in posting order:
for every destination other than itself, a count message followed by a
payload message when the buffer is nonempty. -/
def sentMessages (adj : Graph) (domain : DomainInfo) : List Msg :=
  (List.range domain.numRanks).flatMap fun dst =>
    if dst = domain.rank then []
    else
      let buf := sendBufferFor adj domain dst
      ⟨dst, 0, [buf.length]⟩ ::
        (if 0 < buf.length then [⟨dst, 1, buf⟩] else [])

/-- Abstract trace events of one worker's run: posted receives, sends,
and the `MPI_Waitall` calls. -/
inductive Event where
  | postSizeRecv (src : ℕ)
  | send (m : Msg)
  | waitAllSizeRecvs
  | postPayloadRecv (src n : ℕ)
  | waitAllPayloadRecvs
  | waitAllSends
deriving Repr, DecidableEq

/-- The interior-vertex loop (lines 170-177): start a traversal at each
unvisited interior vertex while the target is not found, breaking out as
soon as a traversal reports the target; insertions go to a discarded
fresh `dummy` set. -/
def interiorLoop (adj : Graph) (domain : DomainInfo) (target fuel : ℕ) :
    List ℕ → DFSState → DFSState
  | [], st => st
  | v :: vs, st =>
    if v ∉ st.visited ∧ st.found = false then
      match localDFS adj domain target fuel { st with bnd := ∅ } v with
      | (st2, true) => { st2 with bnd := st.bnd }
      | (st2, false) => interiorLoop adj domain target fuel vs { st2 with bnd := st.bnd }
    else interiorLoop adj domain target fuel vs st

/-- The boundary-vertex loop (lines 198-202): like the interior loop but
without a break, and inserting into the shared boundary set. -/
def boundaryLoop (adj : Graph) (domain : DomainInfo) (target fuel : ℕ) :
    List ℕ → DFSState → DFSState
  | [], st => st
  | v :: vs, st =>
    if v ∉ st.visited ∧ st.found = false then
      boundaryLoop adj domain target fuel vs (localDFS adj domain target fuel st v).1
    else boundaryLoop adj domain target fuel vs st

/-- The inner loop over one received payload (lines 206-213): traverse
locally-owned unvisited payload vertices, breaking on target. -/
def payloadInner (adj : Graph) (domain : DomainInfo) (target fuel : ℕ) :
    List ℕ → DFSState → DFSState
  | [], st => st
  | v :: vs, st =>
    if isLocalVertex v domain ∧ v ∉ st.visited then
      match localDFS adj domain target fuel { st with bnd := ∅ } v with
      | (st2, true) => { st2 with bnd := st.bnd }
      | (st2, false) => payloadInner adj domain target fuel vs { st2 with bnd := st.bnd }
    else payloadInner adj domain target fuel vs st

/-- The outer payload loop (lines 204-215): for every source rank other
than the worker itself, while the target is not found, process that
source's payload. -/
def payloadLoop (adj : Graph) (domain : DomainInfo) (target fuel : ℕ)
    (recvBuffers : List (List ℕ)) (st : DFSState) : DFSState :=
  (List.range domain.numRanks).foldl
    (fun st src =>
      if src ≠ domain.rank ∧ st.found = false then
        payloadInner adj domain target fuel (recvBuffers.getD src []) st
      else st) st

/-- Observable outcome of one worker's `dfs_mpi_with_overlap` call: its
event trace, its `localResult` sequence, and its `targetFound` flag. -/
structure WorkerOutput where
  events : List Event
  result : List ℕ
  found : Bool
deriving Repr, DecidableEq

/-- Mirror of `dfs_mpi_with_overlap(adj, domain, target)` for one worker,
with the messages of other workers supplied as `recvBuffers` (indexed by
source rank). -/
def runWorker (adj : Graph) (domain : DomainInfo) (target : ℕ)
    (recvBuffers : List (List ℕ)) (fuel : ℕ) : WorkerOutput :=
  let sizeRecvSrcs := (List.range domain.numRanks).filter (fun s => s ≠ domain.rank)
  let msgs := sentMessages adj domain
  let payloadSrcs := sizeRecvSrcs.filter (fun s => 0 < (recvBuffers.getD s []).length)
  let st1 := interiorLoop adj domain target fuel (interiorVertices adj domain) initState
  let st2 := boundaryLoop adj domain target fuel (localBoundaryVertices adj domain) st1
  let st3 := payloadLoop adj domain target fuel recvBuffers st2
  { events :=
      sizeRecvSrcs.map Event.postSizeRecv ++
      msgs.map Event.send ++
      (if sizeRecvSrcs.isEmpty then [] else [Event.waitAllSizeRecvs]) ++
      payloadSrcs.map (fun s => Event.postPayloadRecv s (recvBuffers.getD s []).length) ++
      (if payloadSrcs.isEmpty then [] else [Event.waitAllPayloadRecvs]) ++
      (if msgs.isEmpty then [] else [Event.waitAllSends]),
    result := st3.result,
    found := st3.found }

/-- Full SPMD run: every worker partitions identically, and worker `w`
receives from worker `src` exactly the buffer `src` computed for `w`
(reliable in-order delivery). -/
def distributedRun (adj : Graph) (numRanks target fuel : ℕ) : List WorkerOutput :=
  (List.range numRanks).map fun w =>
    let d := setupDomain adj.length w numRanks
    let recvs := (List.range numRanks).map fun src =>
      if src = w then [] else sendBufferFor adj (setupDomain adj.length src numRanks) w
    runWorker adj d target recvs fuel

/-- Per-worker quantities entering the final reduction in `main`
(lines 259-289): elapsed time, `localResult.size()`, and the
`localFound` flag. -/
structure WorkerReport where
  time : ℚ
  count : ℕ
  found : Bool
deriving Repr, DecidableEq

/-- Mirror of the aggregation in `main`: `MPI_Reduce(..., MPI_MAX, ...)`
on the elapsed times and `MPI_Reduce(..., MPI_SUM, ...)` on the visited
counts.  No reduction of the `found` flags appears in `main`:
`localFound` is not used after the traversal returns. -/
def aggregate (reports : List WorkerReport) : ℚ × ℕ :=
  (reports.foldl (fun acc rep => max acc rep.time) 0,
    reports.foldl (fun acc rep => acc + rep.count) 0)

/-!
Reference sequential traversal, from `src/serial.cpp` (`dfs`/`dfsRec`)
at `stride = 1`: plain recursive DFS with roots taken in ascending
vertex order.  At stride 1 the second loop of `dfsRec` is empty, and the
target flag there never interrupts the traversal, so it is omitted. -/

/-- The neighbor loop of `dfsRec`, abstracted over the recursive call:
recurse into each unvisited neighbor in list order. -/
def seqNeighborsAux (g : Finset ℕ × List ℕ → ℕ → Finset ℕ × List ℕ) :
    List ℕ → Finset ℕ × List ℕ → Finset ℕ × List ℕ
  | [], st => st
  | n :: rest, st =>
    if n ∈ st.1 then seqNeighborsAux g rest st
    else seqNeighborsAux g rest (g st n)

/-- Mirror of `dfsRec` (serial.cpp) at stride 1, on `(visited, result)`
state; callers only invoke it on unvisited vertices. -/
def seqDFSRec (adj : Graph) : ℕ → Finset ℕ × List ℕ → ℕ → Finset ℕ × List ℕ
  | 0, st, _ => st
  | fuel + 1, st, s =>
    seqNeighborsAux (seqDFSRec adj fuel) (neighbors adj s) (insert s st.1, st.2 ++ [s])

/-- Mirror of `dfs` (serial.cpp) at stride 1: sequential DFS from all
vertices in ascending order; returns the visited sequence. -/
def seqDFS (adj : Graph) (fuel : ℕ) : List ℕ :=
  ((List.range adj.length).foldl
    (fun st i => if i ∈ st.1 then st else seqDFSRec adj fuel st i)
    ((∅ : Finset ℕ), ([] : List ℕ))).2

/-- The state after the interior-vertex phase (orchestrator step 3). -/
def interiorState (adj : Graph) (domain : DomainInfo) (target fuel : ℕ) : DFSState :=
  interiorLoop adj domain target fuel (interiorVertices adj domain) initState

/-- The state after the boundary-vertex phase (orchestrator step 6). -/
def boundaryState (adj : Graph) (domain : DomainInfo) (target fuel : ℕ) : DFSState :=
  boundaryLoop adj domain target fuel (localBoundaryVertices adj domain)
    (interiorState adj domain target fuel)

/-- The state after the received-payload phase (orchestrator step 7). -/
def finalState (adj : Graph) (domain : DomainInfo) (target : ℕ)
    (recvBuffers : List (List ℕ)) (fuel : ℕ) : DFSState :=
  payloadLoop adj domain target fuel recvBuffers (boundaryState adj domain target fuel)

lemma runWorker_result (adj : Graph) (domain : DomainInfo) (target : ℕ)
    (recvBuffers : List (List ℕ)) (fuel : ℕ) :
    (runWorker adj domain target recvBuffers fuel).result =
      (finalState adj domain target recvBuffers fuel).result := rfl

lemma runWorker_found (adj : Graph) (domain : DomainInfo) (target : ℕ)
    (recvBuffers : List (List ℕ)) (fuel : ℕ) :
    (runWorker adj domain target recvBuffers fuel).found =
      (finalState adj domain target recvBuffers fuel).found := rfl

/-! Once `found` is set, every root loop leaves the state untouched. -/

lemma interiorLoop_found (adj : Graph) (domain : DomainInfo) (target fuel : ℕ)
    (roots : List ℕ) (st : DFSState) (h : st.found = true) :
    interiorLoop adj domain target fuel roots st = st := by
  induction roots with
  | nil => rfl
  | cons v vs ih =>
    unfold interiorLoop
    rw [if_neg (by simp [h])]
    exact ih

lemma boundaryLoop_found (adj : Graph) (domain : DomainInfo) (target fuel : ℕ)
    (roots : List ℕ) (st : DFSState) (h : st.found = true) :
    boundaryLoop adj domain target fuel roots st = st := by
  induction roots with
  | nil => rfl
  | cons v vs ih =>
    unfold boundaryLoop
    rw [if_neg (by simp [h])]
    exact ih

lemma payloadLoop_found (adj : Graph) (domain : DomainInfo) (target fuel : ℕ)
    (recvBuffers : List (List ℕ)) (st : DFSState) (h : st.found = true) :
    payloadLoop adj domain target fuel recvBuffers st = st := by
  unfold payloadLoop
  generalize List.range domain.numRanks = l
  induction l with
  | nil => rfl
  | cons s ss ih =>
    rw [List.foldl_cons, if_neg (by simp [h])]
    exact ih

/-! Claim theorems for the traversal and messaging. -/

/-- The cycle graph of the C4 scenario: 4 vertices, edges 0→1, 1→2,
2→3, 3→0. -/
def ringGraph4 : Graph := [[1], [2], [3], [0]]

/-- C4: on the 4-vertex cycle with 2 workers and target 3, the partition
is `{0,1}` / `{2,3}`, worker 1's local traversal visits vertex 3, the
per-worker visited counts sum to 4, and some worker's found flag
(worker 1's) is true while worker 0's is false. -/
theorem endToEnd_ring4 :
    ((setupDomain 4 0 2).startVertex = 0 ∧ (setupDomain 4 0 2).endVertex = 2 ∧
      (setupDomain 4 1 2).startVertex = 2 ∧ (setupDomain 4 1 2).endVertex = 4) ∧
    (distributedRun ringGraph4 2 3 5).map (fun o => o.result) = [[0, 1], [2, 3]] ∧
    3 ∈ ((distributedRun ringGraph4 2 3 5).map (fun o => o.result)).getD 1 [] ∧
    ((distributedRun ringGraph4 2 3 5).map (fun o => o.result.length)).sum = 4 ∧
    (distributedRun ringGraph4 2 3 5).any (fun o => o.found) = true ∧
    (distributedRun ringGraph4 2 3 5).map (fun o => o.found) = [false, true] := by
  decide

/-- C3 counterexample: the aggregation of `main` is insensitive to the
per-worker found flags — a single worker reporting `found = false` and
one reporting `found = true` produce identical aggregate output, so no
component of the aggregate equals an or-reduction of the found flags.
(`main` reduces only the times with MPI_MAX and the counts with MPI_SUM;
`localFound` is never reduced.) -/
theorem aggregate_found_not_aggregated :
    aggregate [⟨1, 5, false⟩] = aggregate [⟨1, 5, true⟩] ∧
    [(⟨1, 5, false⟩ : WorkerReport)].any (fun rep => rep.found) = false ∧
    [(⟨1, 5, true⟩ : WorkerReport)].any (fun rep => rep.found) = true := by
  decide

lemma foldl_max_init (reports : List WorkerReport) (a : ℚ) :
    a ≤ reports.foldl (fun acc rep => max acc rep.time) a := by
  induction reports generalizing a with
  | nil => exact le_refl a
  | cons rep rest ih =>
    exact le_trans (le_max_left a rep.time) (ih (max a rep.time))

lemma foldl_max_mem_le (reports : List WorkerReport) (a : ℚ) :
    ∀ rep ∈ reports, rep.time ≤ reports.foldl (fun acc r2 => max acc r2.time) a := by
  induction reports generalizing a with
  | nil => intro rep h; cases h
  | cons rep2 rest ih =>
    intro rep h
    rcases List.mem_cons.mp h with h1 | h1
    · subst h1
      exact le_trans (le_max_right a rep.time) (foldl_max_init rest _)
    · exact ih (max a rep2.time) rep h1

lemma foldl_max_attained (reports : List WorkerReport) (a : ℚ) :
    reports.foldl (fun acc rep => max acc rep.time) a = a ∨
      ∃ rep ∈ reports, reports.foldl (fun acc r2 => max acc r2.time) a = rep.time := by
  induction reports generalizing a with
  | nil => exact Or.inl rfl
  | cons rep rest ih =>
    rcases ih (max a rep.time) with h | ⟨rep2, hmem, heq⟩
    · rcases le_or_lt rep.time a with h2 | h2
      · rw [List.foldl_cons]
        left
        rw [h, max_eq_left h2]
      · right
        exact ⟨rep, List.mem_cons_self _ _, by rw [List.foldl_cons, h, max_eq_right (le_of_lt h2)]⟩
    · exact Or.inr ⟨rep2, List.mem_cons_of_mem _ hmem, heq⟩

lemma foldl_add_count (reports : List WorkerReport) (n : ℕ) :
    reports.foldl (fun acc rep => acc + rep.count) n =
      n + (reports.map (fun rep => rep.count)).sum := by
  induction reports generalizing n with
  | nil => simp
  | cons rep rest ih =>
    rw [List.foldl_cons, ih, List.map_cons, List.sum_cons]
    omega

/-- C3 amended: the aggregator combines the per-worker elapsed times with
max (the result bounds every report's time and, when nonzero, is one of
them) and the visited counts with sum; it does not aggregate the found
flags — its output is invariant under any rewriting of them. -/
theorem aggregate_max_sum (reports : List WorkerReport) :
    (∀ rep ∈ reports, rep.time ≤ (aggregate reports).1) ∧
    ((aggregate reports).1 = 0 ∨ ∃ rep ∈ reports, (aggregate reports).1 = rep.time) ∧
    (aggregate reports).2 = (reports.map (fun rep => rep.count)).sum ∧
    (∀ g : Bool → Bool,
      aggregate (reports.map (fun rep => { rep with found := g rep.found })) =
        aggregate reports) := by
  refine ⟨foldl_max_mem_le reports 0, foldl_max_attained reports 0, ?_, ?_⟩
  · have := foldl_add_count reports 0
    simpa [aggregate] using this
  · intro g
    unfold aggregate
    rw [List.foldl_map, List.foldl_map]

/-- C3 amended witness: concrete two-worker report list. -/
theorem aggregate_max_sum_witness :
    (∀ rep ∈ [(⟨1, 5, false⟩ : WorkerReport), ⟨2, 7, true⟩],
        rep.time ≤ (aggregate [⟨1, 5, false⟩, ⟨2, 7, true⟩]).1) ∧
    ((aggregate [⟨1, 5, false⟩, ⟨2, 7, true⟩]).1 = 0 ∨
      ∃ rep ∈ [(⟨1, 5, false⟩ : WorkerReport), ⟨2, 7, true⟩],
        (aggregate [⟨1, 5, false⟩, ⟨2, 7, true⟩]).1 = rep.time) ∧
    (aggregate [⟨1, 5, false⟩, ⟨2, 7, true⟩]).2 =
      ([(⟨1, 5, false⟩ : WorkerReport), ⟨2, 7, true⟩].map (fun rep => rep.count)).sum ∧
    (∀ g : Bool → Bool,
      aggregate ([(⟨1, 5, false⟩ : WorkerReport), ⟨2, 7, true⟩].map
          (fun rep => { rep with found := g rep.found })) =
        aggregate [⟨1, 5, false⟩, ⟨2, 7, true⟩]) :=
  aggregate_max_sum [⟨1, 5, false⟩, ⟨2, 7, true⟩]

/-- C5: reaching an unvisited vertex equal to the target marks only that
vertex, records it, sets `found`, and returns true without touching any
neighbor; and once `found` is true the interior-vertex loop starts no
traversal and leaves the state unchanged. -/
theorem target_short_circuit (adj : Graph) (domain : DomainInfo)
    (target fuel : ℕ) (st st2 : DFSState) (v : ℕ) (roots : List ℕ)
    (hv : v ∉ st.visited) (ht : v = target) (hfound : st2.found = true) :
    localDFS adj domain target (fuel + 1) st v =
      ({ st with visited := insert v st.visited, result := st.result ++ [v],
                 found := true }, true) ∧
    interiorLoop adj domain target fuel roots st2 = st2 := by
  constructor
  · unfold localDFS
    rw [if_neg hv, if_pos ht]
  · exact interiorLoop_found adj domain target fuel roots st2 hfound

/-!
Invariant development for C9: the visited set only grows, and the result
sequence stays duplicate-free with every recorded vertex marked visited.
-/

/-- Invariant relating a worker's result sequence to its visited set. -/
def ResultInv (st : DFSState) : Prop :=
  st.result.Nodup ∧ ∀ x ∈ st.result, x ∈ st.visited

lemma ResultInv_mark (st : DFSState) (v : ℕ) (hm : v ∉ st.visited)
    (h : ResultInv st) :
    ResultInv { st with visited := insert v st.visited,
                        result := st.result ++ [v] } := by
  obtain ⟨hnd, hmem⟩ := h
  constructor
  · have hvnotin : v ∉ st.result := fun hx => hm (hmem v hx)
    simp [List.nodup_append, hnd, hvnotin]
  · intro x hx
    rcases List.mem_append.mp hx with h1 | h1
    · exact Finset.mem_insert_of_mem (hmem x h1)
    · simp at h1
      subst h1
      exact Finset.mem_insert_self x _

lemma dfsNeighborsAux_inv (domain : DomainInfo)
    (g : DFSState → ℕ → DFSState × Bool)
    (hg : ∀ st v, st.visited ⊆ (g st v).1.visited ∧
      (ResultInv st → ResultInv (g st v).1)) :
    ∀ ns st, st.visited ⊆ (dfsNeighborsAux g domain ns st).1.visited ∧
      (ResultInv st → ResultInv (dfsNeighborsAux g domain ns st).1) := by
  intro ns
  induction ns with
  | nil => intro st; exact ⟨Finset.Subset.refl _, id⟩
  | cons n rest ih =>
    intro st
    unfold dfsNeighborsAux
    by_cases hl : isLocalVertex n domain
    · rw [if_pos hl]
      by_cases hm : n ∈ st.visited
      · rw [if_pos hm]; exact ih st
      · rw [if_neg hm]
        cases hgn : g st n with
        | mk st2 b =>
          have hsub := (hg st n).1
          have hinv := (hg st n).2
          rw [hgn] at hsub hinv
          cases b
          · exact ⟨Finset.Subset.trans hsub (ih st2).1,
              fun h => (ih st2).2 (hinv h)⟩
          · exact ⟨hsub, hinv⟩
    · rw [if_neg hl]
      exact ih { st with bnd := insert n st.bnd }

lemma localDFS_inv (adj : Graph) (domain : DomainInfo) (target : ℕ) :
    ∀ fuel st v, st.visited ⊆ (localDFS adj domain target fuel st v).1.visited ∧
      (ResultInv st → ResultInv (localDFS adj domain target fuel st v).1) := by
  intro fuel
  induction fuel with
  | zero => intro st v; exact ⟨Finset.Subset.refl _, id⟩
  | succ fuel ih =>
    intro st v
    unfold localDFS
    by_cases hm : v ∈ st.visited
    · rw [if_pos hm]; exact ⟨Finset.Subset.refl _, id⟩
    · rw [if_neg hm]
      by_cases ht : v = target
      · rw [if_pos ht]
        exact ⟨Finset.subset_insert _ _, fun h => ResultInv_mark st v hm h⟩
      · rw [if_neg ht]
        have haux := dfsNeighborsAux_inv domain (localDFS adj domain target fuel)
          (fun st2 v2 => ih st2 v2) (neighbors adj v)
          { st with visited := insert v st.visited, result := st.result ++ [v] }
        exact ⟨Finset.Subset.trans (Finset.subset_insert _ _) haux.1,
          fun h => haux.2 (ResultInv_mark st v hm h)⟩

lemma interiorLoop_inv (adj : Graph) (domain : DomainInfo) (target fuel : ℕ) :
    ∀ roots st, ResultInv st →
      ResultInv (interiorLoop adj domain target fuel roots st) := by
  intro roots
  induction roots with
  | nil => intro st h; exact h
  | cons v vs ih =>
    intro st h
    unfold interiorLoop
    by_cases hc : v ∉ st.visited ∧ st.found = false
    · rw [if_pos hc]
      cases hr : localDFS adj domain target fuel { st with bnd := ∅ } v with
      | mk st2 b =>
        have hinv := (localDFS_inv adj domain target fuel { st with bnd := ∅ } v).2
        rw [hr] at hinv
        cases b
        · exact ih { st2 with bnd := st.bnd } (hinv h)
        · exact hinv h
    · rw [if_neg hc]
      exact ih st h

lemma boundaryLoop_inv (adj : Graph) (domain : DomainInfo) (target fuel : ℕ) :
    ∀ roots st, ResultInv st →
      ResultInv (boundaryLoop adj domain target fuel roots st) := by
  intro roots
  induction roots with
  | nil => intro st h; exact h
  | cons v vs ih =>
    intro st h
    unfold boundaryLoop
    by_cases hc : v ∉ st.visited ∧ st.found = false
    · rw [if_pos hc]
      exact ih _ ((localDFS_inv adj domain target fuel st v).2 h)
    · rw [if_neg hc]
      exact ih st h

lemma payloadInner_inv (adj : Graph) (domain : DomainInfo) (target fuel : ℕ) :
    ∀ vs st, ResultInv st →
      ResultInv (payloadInner adj domain target fuel vs st) := by
  intro vs
  induction vs with
  | nil => intro st h; exact h
  | cons v rest ih =>
    intro st h
    unfold payloadInner
    by_cases hc : isLocalVertex v domain ∧ v ∉ st.visited
    · rw [if_pos hc]
      cases hr : localDFS adj domain target fuel { st with bnd := ∅ } v with
      | mk st2 b =>
        have hinv := (localDFS_inv adj domain target fuel { st with bnd := ∅ } v).2
        rw [hr] at hinv
        cases b
        · exact ih { st2 with bnd := st.bnd } (hinv h)
        · exact hinv h
    · rw [if_neg hc]
      exact ih st h

lemma payloadLoop_inv (adj : Graph) (domain : DomainInfo) (target fuel : ℕ)
    (recvBuffers : List (List ℕ)) (st : DFSState) (h : ResultInv st) :
    ResultInv (payloadLoop adj domain target fuel recvBuffers st) := by
  unfold payloadLoop
  generalize List.range domain.numRanks = l
  induction l generalizing st with
  | nil => exact h
  | cons s ss ih =>
    rw [List.foldl_cons]
    by_cases hc : s ≠ domain.rank ∧ st.found = false
    · rw [if_pos hc]
      exact ih _ (payloadInner_inv adj domain target fuel _ st h)
    · rw [if_neg hc]
      exact ih st h

/-- C9: calling `localDFS` on an already-visited vertex returns the state
unchanged with a false flag; one `localDFS` call preserves the
no-duplicates invariant of the result sequence; and consequently a full
worker run produces a visited sequence without duplicates. -/
theorem localDFS_idempotent_nodup (adj : Graph) (domain : DomainInfo)
    (target fuel : ℕ) (st : DFSState) (v : ℕ) (recvBuffers : List (List ℕ)) :
    (v ∈ st.visited → localDFS adj domain target fuel st v = (st, false)) ∧
    ((st.result.Nodup ∧ ∀ x ∈ st.result, x ∈ st.visited) →
      ((localDFS adj domain target fuel st v).1.result.Nodup ∧
        ∀ x ∈ (localDFS adj domain target fuel st v).1.result,
          x ∈ (localDFS adj domain target fuel st v).1.visited)) ∧
    (runWorker adj domain target recvBuffers fuel).result.Nodup := by
  refine ⟨?_, ?_, ?_⟩
  · intro h
    cases fuel with
    | zero => rfl
    | succ fuel => unfold localDFS; rw [if_pos h]
  · exact (localDFS_inv adj domain target fuel st v).2
  · rw [runWorker_result]
    have hinit : ResultInv initState := ⟨List.nodup_nil, by intro x hx; cases hx⟩
    exact (payloadLoop_inv adj domain target fuel recvBuffers _
      (boundaryLoop_inv adj domain target fuel _ _
        (interiorLoop_inv adj domain target fuel _ _ hinit))).1

/-- C9 witness: re-entering the already-visited vertex 0 is a no-op, and
a concrete full run has a duplicate-free visited sequence. -/
theorem localDFS_idempotent_nodup_witness :
    (0 ∈ (⟨{0}, [0], ∅, false⟩ : DFSState).visited ∧
      localDFS ringGraph4 (setupDomain 4 0 2) 3 5 ⟨{0}, [0], ∅, false⟩ 0 =
        (⟨{0}, [0], ∅, false⟩, false)) ∧
    (runWorker ringGraph4 (setupDomain 4 0 2) 3 [[], [2]] 5).result.Nodup :=
  ⟨⟨by decide,
      (localDFS_idempotent_nodup ringGraph4 (setupDomain 4 0 2) 3 5
        ⟨{0}, [0], ∅, false⟩ 0 [[], [2]]).1 (by decide)⟩,
    (localDFS_idempotent_nodup ringGraph4 (setupDomain 4 0 2) 3 5
      ⟨{0}, [0], ∅, false⟩ 0 [[], [2]]).2.2⟩

lemma runWorker_events (adj : Graph) (domain : DomainInfo) (target : ℕ)
    (recvBuffers : List (List ℕ)) (fuel : ℕ) :
    (runWorker adj domain target recvBuffers fuel).events =
      ((List.range domain.numRanks).filter (fun s => s ≠ domain.rank)).map
          Event.postSizeRecv ++
        (sentMessages adj domain).map Event.send ++
        (if ((List.range domain.numRanks).filter
            (fun s => s ≠ domain.rank)).isEmpty
          then [] else [Event.waitAllSizeRecvs]) ++
        ((((List.range domain.numRanks).filter (fun s => s ≠ domain.rank)).filter
            (fun s => 0 < (recvBuffers.getD s []).length)).map
          (fun s => Event.postPayloadRecv s (recvBuffers.getD s []).length)) ++
        (if (((List.range domain.numRanks).filter (fun s => s ≠ domain.rank)).filter
            (fun s => 0 < (recvBuffers.getD s []).length)).isEmpty
          then [] else [Event.waitAllPayloadRecvs]) ++
        (if (sentMessages adj domain).isEmpty then [] else [Event.waitAllSends]) := rfl

/-!
Helper lemmas for C8: a `true` return from `localDFS` means the found
flag is set; the interior and boundary loops split over list
concatenation (the interior break lands in a found state, which freezes
the rest); once found, every loop is the identity; and the wait events
appear in the trace exactly when the corresponding requests exist,
independently of the found flag.
-/

lemma dfsNeighborsAux_true_found (domain : DomainInfo)
    (g : DFSState → ℕ → DFSState × Bool)
    (hg : ∀ st v, (g st v).2 = true → (g st v).1.found = true) :
    ∀ ns st, (dfsNeighborsAux g domain ns st).2 = true →
      (dfsNeighborsAux g domain ns st).1.found = true := by
  intro ns
  induction ns with
  | nil => intro st h; simp [dfsNeighborsAux] at h
  | cons n rest ih =>
    intro st h
    unfold dfsNeighborsAux at h ⊢
    by_cases hl : isLocalVertex n domain
    · rw [if_pos hl] at h ⊢
      by_cases hm : n ∈ st.visited
      · rw [if_pos hm] at h ⊢
        exact ih st h
      · rw [if_neg hm] at h ⊢
        cases hgn : g st n with
        | mk st2 b =>
          rw [hgn] at h
          cases b
          · exact ih st2 h
          · have := hg st n
            rw [hgn] at this
            exact this rfl
    · rw [if_neg hl] at h ⊢
      exact ih _ h

lemma localDFS_true_found (adj : Graph) (domain : DomainInfo) (target : ℕ) :
    ∀ fuel st v, (localDFS adj domain target fuel st v).2 = true →
      (localDFS adj domain target fuel st v).1.found = true := by
  intro fuel
  induction fuel with
  | zero => intro st v h; simp [localDFS] at h
  | succ fuel ih =>
    intro st v h
    simp only [localDFS] at h ⊢
    by_cases hm : v ∈ st.visited
    · rw [if_pos hm] at h; simp at h
    · rw [if_neg hm] at h ⊢
      by_cases ht : v = target
      · rw [if_pos ht]
      · rw [if_neg ht] at h ⊢
        exact dfsNeighborsAux_true_found domain _ ih _ _ h

lemma interiorLoop_append (adj : Graph) (domain : DomainInfo) (target fuel : ℕ) :
    ∀ l1 l2 st, interiorLoop adj domain target fuel (l1 ++ l2) st =
      interiorLoop adj domain target fuel l2
        (interiorLoop adj domain target fuel l1 st) := by
  intro l1
  induction l1 with
  | nil => intro l2 st; rfl
  | cons u us ih =>
    intro l2 st
    rw [List.cons_append]
    simp only [interiorLoop]
    by_cases hc : u ∉ st.visited ∧ st.found = false
    · simp only [if_pos hc]
      cases hr : localDFS adj domain target fuel { st with bnd := ∅ } u with
      | mk st2 b =>
        have hfnd := localDFS_true_found adj domain target fuel
          { st with bnd := ∅ } u
        rw [hr] at hfnd
        cases b
        · exact ih l2 { st2 with bnd := st.bnd }
        · exact (interiorLoop_found adj domain target fuel l2
            { st2 with bnd := st.bnd } (hfnd rfl)).symm
    · simp only [if_neg hc]
      exact ih l2 st

lemma boundaryLoop_append (adj : Graph) (domain : DomainInfo) (target fuel : ℕ) :
    ∀ l1 l2 st, boundaryLoop adj domain target fuel (l1 ++ l2) st =
      boundaryLoop adj domain target fuel l2
        (boundaryLoop adj domain target fuel l1 st) := by
  intro l1
  induction l1 with
  | nil => intro l2 st; rfl
  | cons u us ih =>
    intro l2 st
    rw [List.cons_append]
    simp only [boundaryLoop]
    by_cases hc : u ∉ st.visited ∧ st.found = false
    · simp only [if_pos hc]
      exact ih l2 _
    · simp only [if_neg hc]
      exact ih l2 st

lemma payloadFold_found (adj : Graph) (domain : DomainInfo) (target fuel : ℕ)
    (recvBuffers : List (List ℕ)) :
    ∀ (srcs : List ℕ) (st : DFSState), st.found = true →
      srcs.foldl (fun st2 src => if src ≠ domain.rank ∧ st2.found = false then
        payloadInner adj domain target fuel (recvBuffers.getD src []) st2
        else st2) st = st := by
  intro srcs
  induction srcs with
  | nil => intro st _; rfl
  | cons s ss ih =>
    intro st h
    rw [List.foldl_cons, if_neg (by simp [h])]
    exact ih st h

lemma payloadInner_first_found (adj : Graph) (domain : DomainInfo)
    (target fuel : ℕ) :
    ∀ l1 st v rest,
      (payloadInner adj domain target fuel l1 st).found = false →
      isLocalVertex v domain = true →
      v ∉ (payloadInner adj domain target fuel l1 st).visited →
      (localDFS adj domain target fuel
        { payloadInner adj domain target fuel l1 st with bnd := ∅ } v).2 = true →
      payloadInner adj domain target fuel (l1 ++ v :: rest) st =
        { (localDFS adj domain target fuel
            { payloadInner adj domain target fuel l1 st with bnd := ∅ } v).1
          with bnd := (payloadInner adj domain target fuel l1 st).bnd } := by
  intro l1
  induction l1 with
  | nil =>
    intro st v rest hfound hl hm htrue
    rw [List.nil_append]
    simp only [payloadInner] at hfound hm htrue
    simp only [payloadInner]
    rw [if_pos ⟨hl, hm⟩]
    cases hr : localDFS adj domain target fuel { st with bnd := ∅ } v with
    | mk st2 b =>
      rw [hr] at htrue
      cases b
      · exact Bool.noConfusion htrue
      · rfl
  | cons u us ih =>
    intro st v rest hfound hl hm htrue
    rw [List.cons_append]
    by_cases hc : isLocalVertex u domain ∧ u ∉ st.visited
    · cases hr : localDFS adj domain target fuel { st with bnd := ∅ } u with
      | mk st2 b =>
        cases b
        · have hstep : ∀ X, payloadInner adj domain target fuel (u :: X) st =
              payloadInner adj domain target fuel X { st2 with bnd := st.bnd } := by
            intro X
            simp only [payloadInner]
            rw [if_pos hc, hr]
          rw [hstep us] at hfound hm htrue
          rw [hstep (us ++ v :: rest), hstep us]
          exact ih { st2 with bnd := st.bnd } v rest hfound hl hm htrue
        · have hfnd := localDFS_true_found adj domain target fuel
            { st with bnd := ∅ } u
          rw [hr] at hfnd
          have hstep : payloadInner adj domain target fuel (u :: us) st =
              { st2 with bnd := st.bnd } := by
            simp only [payloadInner]
            rw [if_pos hc, hr]
          have hff : ({ st2 with bnd := st.bnd } : DFSState).found = true := hfnd rfl
          rw [hstep, hff] at hfound
          exact Bool.noConfusion hfound
    · have hstep : ∀ X, payloadInner adj domain target fuel (u :: X) st =
          payloadInner adj domain target fuel X st := by
        intro X
        simp only [payloadInner]
        rw [if_neg hc]
      rw [hstep us] at hfound hm htrue
      rw [hstep (us ++ v :: rest), hstep us]
      exact ih st v rest hfound hl hm htrue

lemma runWorker_waits (adj : Graph) (domain : DomainInfo) (target : ℕ)
    (recvBuffers : List (List ℕ)) (fuel : ℕ) :
    (Event.waitAllSizeRecvs ∈ (runWorker adj domain target recvBuffers fuel).events ↔
      ((List.range domain.numRanks).filter (fun s => s ≠ domain.rank)) ≠ []) ∧
    (Event.waitAllPayloadRecvs ∈ (runWorker adj domain target recvBuffers fuel).events ↔
      (((List.range domain.numRanks).filter (fun s => s ≠ domain.rank)).filter
        (fun s => 0 < (recvBuffers.getD s []).length)) ≠ []) ∧
    (Event.waitAllSends ∈ (runWorker adj domain target recvBuffers fuel).events ↔
      sentMessages adj domain ≠ []) := by
  by_cases h1 : (List.range domain.numRanks).filter (fun s => s ≠ domain.rank) = [] <;>
  by_cases h2 : ((List.range domain.numRanks).filter (fun s => s ≠ domain.rank)).filter
      (fun s => 0 < (recvBuffers.getD s []).length) = [] <;>
  by_cases h3 : sentMessages adj domain = [] <;>
    simp [runWorker_events, List.isEmpty_iff, h1, h2, h3]

/-- C8: for every run of a worker's traversal, from the point at which
`found` becomes true no new root traversal is started in any phase, yet
the remaining waits are still executed and the run returns normally.
Precisely: (1) from any state with `found = true`, the interior loop,
the boundary loop, the payload loop, and any remaining suffix of payload
sources leave the state untouched — so no vertex unvisited at that point
is subsequently visited; (2)-(3) the interior and boundary loops split
over any decomposition of their root lists, so (1) applies from the
exact root at which `found` arose (the interior break lands in a found
state); (4) if `found` first becomes true at a received-payload vertex,
the rest of that payload is not traversed; (5)-(7) the event trace
contains the wait on the size receives, on the payload receives, and on
the sends exactly when such outstanding requests exist, independently of
the found flag; (8)-(9) the run returns normally with the visited
sequence and found flag accumulated by the three phases. -/
theorem found_drains_waits (adj : Graph) (domain : DomainInfo)
    (target fuel : ℕ) (recvBuffers : List (List ℕ)) (st : DFSState)
    (l1 l2 : List ℕ) (v : ℕ) (rest : List ℕ) :
    (st.found = true →
      interiorLoop adj domain target fuel l1 st = st ∧
      boundaryLoop adj domain target fuel l1 st = st ∧
      payloadLoop adj domain target fuel recvBuffers st = st ∧
      l2.foldl (fun st2 src => if src ≠ domain.rank ∧ st2.found = false then
        payloadInner adj domain target fuel (recvBuffers.getD src []) st2
        else st2) st = st) ∧
    interiorLoop adj domain target fuel (l1 ++ l2) st =
      interiorLoop adj domain target fuel l2
        (interiorLoop adj domain target fuel l1 st) ∧
    boundaryLoop adj domain target fuel (l1 ++ l2) st =
      boundaryLoop adj domain target fuel l2
        (boundaryLoop adj domain target fuel l1 st) ∧
    ((payloadInner adj domain target fuel l1 st).found = false →
      isLocalVertex v domain = true →
      v ∉ (payloadInner adj domain target fuel l1 st).visited →
      (localDFS adj domain target fuel
        { payloadInner adj domain target fuel l1 st with bnd := ∅ } v).2 = true →
      payloadInner adj domain target fuel (l1 ++ v :: rest) st =
        { (localDFS adj domain target fuel
            { payloadInner adj domain target fuel l1 st with bnd := ∅ } v).1
          with bnd := (payloadInner adj domain target fuel l1 st).bnd }) ∧
    (Event.waitAllSizeRecvs ∈ (runWorker adj domain target recvBuffers fuel).events ↔
      ((List.range domain.numRanks).filter (fun s => s ≠ domain.rank)) ≠ []) ∧
    (Event.waitAllPayloadRecvs ∈ (runWorker adj domain target recvBuffers fuel).events ↔
      (((List.range domain.numRanks).filter (fun s => s ≠ domain.rank)).filter
        (fun s => 0 < (recvBuffers.getD s []).length)) ≠ []) ∧
    (Event.waitAllSends ∈ (runWorker adj domain target recvBuffers fuel).events ↔
      sentMessages adj domain ≠ []) ∧
    (runWorker adj domain target recvBuffers fuel).result =
      (finalState adj domain target recvBuffers fuel).result ∧
    (runWorker adj domain target recvBuffers fuel).found =
      (finalState adj domain target recvBuffers fuel).found := by
  refine ⟨?_, interiorLoop_append adj domain target fuel l1 l2 st,
    boundaryLoop_append adj domain target fuel l1 l2 st,
    payloadInner_first_found adj domain target fuel l1 st v rest,
    (runWorker_waits adj domain target recvBuffers fuel).1,
    (runWorker_waits adj domain target recvBuffers fuel).2.1,
    (runWorker_waits adj domain target recvBuffers fuel).2.2,
    rfl, rfl⟩
  intro h
  exact ⟨interiorLoop_found adj domain target fuel l1 st h,
    boundaryLoop_found adj domain target fuel l1 st h,
    payloadLoop_found adj domain target fuel recvBuffers st h,
    payloadFold_found adj domain target fuel recvBuffers l2 st h⟩

/-- C8 witness: in the C4 scenario, an already-found state freezes all
three loops of worker 1; the target found at received-payload vertex 2
stops the rest of that payload; and the run's trace contains the size
and send waits. -/
theorem found_drains_waits_witness :
    ((⟨∅, [], ∅, true⟩ : DFSState).found = true ∧
      interiorLoop ringGraph4 (setupDomain 4 1 2) 3 5 [2, 3] ⟨∅, [], ∅, true⟩ =
        ⟨∅, [], ∅, true⟩ ∧
      boundaryLoop ringGraph4 (setupDomain 4 1 2) 3 5 [2, 3] ⟨∅, [], ∅, true⟩ =
        ⟨∅, [], ∅, true⟩ ∧
      payloadLoop ringGraph4 (setupDomain 4 1 2) 3 5 [[2], []] ⟨∅, [], ∅, true⟩ =
        ⟨∅, [], ∅, true⟩) ∧
    ((payloadInner ringGraph4 (setupDomain 4 1 2) 3 5 [] initState).found = false ∧
      payloadInner ringGraph4 (setupDomain 4 1 2) 3 5 ([] ++ 2 :: [0]) initState =
        { (localDFS ringGraph4 (setupDomain 4 1 2) 3 5
            { payloadInner ringGraph4 (setupDomain 4 1 2) 3 5 [] initState
              with bnd := ∅ } 2).1
          with bnd := (payloadInner ringGraph4 (setupDomain 4 1 2) 3 5
            [] initState).bnd }) ∧
    (Event.waitAllSizeRecvs ∈
        (runWorker ringGraph4 (setupDomain 4 1 2) 3 [[2], []] 5).events ↔
      ((List.range (setupDomain 4 1 2).numRanks).filter
        (fun s => s ≠ (setupDomain 4 1 2).rank)) ≠ []) ∧
    (Event.waitAllSends ∈
        (runWorker ringGraph4 (setupDomain 4 1 2) 3 [[2], []] 5).events ↔
      sentMessages ringGraph4 (setupDomain 4 1 2) ≠ []) := by
  have i1 := found_drains_waits ringGraph4 (setupDomain 4 1 2) 3 5 [[2], []]
    ⟨∅, [], ∅, true⟩ [2, 3] [0] 0 []
  have i2 := found_drains_waits ringGraph4 (setupDomain 4 1 2) 3 5 [[2], []]
    initState [] [] 2 [0]
  have h1 := i1.1 rfl
  exact ⟨⟨rfl, h1.1, h1.2.1, h1.2.2.1⟩,
    ⟨by decide, i2.2.2.2.1 (by decide) (by decide) (by decide) (by decide)⟩,
    i1.2.2.2.2.1, i1.2.2.2.2.2.2.1⟩

/-! Ordered-set and message-list lemmas for C7. -/

lemma mem_setInsert (x z : ℕ) (l : List ℕ) :
    z ∈ setInsert x l ↔ z = x ∨ z ∈ l := by
  induction l with
  | nil => simp [setInsert]
  | cons y ys ih =>
    unfold setInsert
    by_cases h1 : x < y
    · rw [if_pos h1]; simp
    · rw [if_neg h1]
      by_cases h2 : x = y
      · rw [if_pos h2]
        subst h2
        simp
      · rw [if_neg h2]
        simp [ih]
        tauto

lemma setInsert_sorted (x : ℕ) (l : List ℕ) (h : l.Sorted (· < ·)) :
    (setInsert x l).Sorted (· < ·) := by
  induction l with
  | nil => simp [setInsert]
  | cons y ys ih =>
    rw [List.sorted_cons] at h
    obtain ⟨hy, hys⟩ := h
    unfold setInsert
    by_cases h1 : x < y
    · rw [if_pos h1, List.sorted_cons]
      refine ⟨?_, List.sorted_cons.mpr ⟨hy, hys⟩⟩
      intro b hb
      rcases List.mem_cons.mp hb with h2 | h2
      · subst h2; exact h1
      · exact lt_trans h1 (hy b h2)
    · rw [if_neg h1]
      by_cases h2 : x = y
      · rw [if_pos h2]
        exact List.sorted_cons.mpr ⟨hy, hys⟩
      · rw [if_neg h2, List.sorted_cons]
        refine ⟨?_, ih hys⟩
        intro b hb
        rcases (mem_setInsert x b ys).mp hb with h3 | h3
        · subst h3; omega
        · exact hy b h3

lemma foldl_setInsert_sorted (raw : List ℕ) :
    ∀ acc : List ℕ, acc.Sorted (· < ·) →
      (raw.foldl (fun s n => setInsert n s) acc).Sorted (· < ·) := by
  induction raw with
  | nil => intro acc h; exact h
  | cons n rest ih =>
    intro acc h
    exact ih _ (setInsert_sorted n acc h)

lemma mem_foldl_setInsert (raw : List ℕ) (z : ℕ) :
    ∀ acc, z ∈ raw.foldl (fun s n => setInsert n s) acc ↔ z ∈ acc ∨ z ∈ raw := by
  induction raw with
  | nil => intro acc; simp
  | cons n rest ih =>
    intro acc
    rw [List.foldl_cons, ih, mem_setInsert]
    simp
    tauto

lemma externalVertices_sorted (adj : Graph) (domain : DomainInfo) :
    (externalVertices adj domain).Sorted (· < ·) :=
  foldl_setInsert_sorted _ _ (by simp)

lemma externalVertices_nodup (adj : Graph) (domain : DomainInfo) :
    (externalVertices adj domain).Nodup :=
  (externalVertices_sorted adj domain).nodup

lemma mem_externalVertices (adj : Graph) (domain : DomainInfo) (z : ℕ) :
    z ∈ externalVertices adj domain ↔
      ∃ b2 ∈ localBoundaryVertices adj domain,
        z ∈ neighbors adj b2 ∧ isLocalVertex z domain = false := by
  unfold externalVertices
  rw [mem_foldl_setInsert]
  simp [List.mem_flatMap, List.mem_filter]

lemma neighbors_wf (adj : Graph) (hwf : WF adj) (b : ℕ) :
    ∀ v ∈ neighbors adj b, v < adj.length := by
  intro v hv
  unfold neighbors at hv
  rw [List.getD_eq_getElem?_getD] at hv
  rcases Nat.lt_or_ge b adj.length with hb | hb
  · rw [List.getElem?_eq_getElem hb] at hv
    simp only [Option.getD_some] at hv
    exact hwf _ (List.getElem_mem hb) v hv
  · rw [List.getElem?_eq_none hb] at hv
    simp only [Option.getD_none] at hv
    cases hv

lemma filter_flatMap_nil {α β : Type} (f : α → List β) (p : β → Bool) (l : List α)
    (h : ∀ b ∈ l, (f b).filter p = []) : (l.flatMap f).filter p = [] := by
  induction l with
  | nil => rfl
  | cons a rest ih =>
    rw [List.flatMap_cons, List.filter_append, h a (List.mem_cons_self _ _),
      List.nil_append]
    exact ih (fun b hb => h b (List.mem_cons_of_mem _ hb))

lemma filter_flatMap_single {α β : Type} (f : α → List β) (p : β → Bool)
    (l : List α) (a : α) (hmem : a ∈ l) (hnd : l.Nodup)
    (h : ∀ b ∈ l, b ≠ a → (f b).filter p = []) :
    (l.flatMap f).filter p = (f a).filter p := by
  induction l with
  | nil => cases hmem
  | cons c rest ih =>
    rw [List.flatMap_cons, List.filter_append]
    rw [List.nodup_cons] at hnd
    rcases List.mem_cons.mp hmem with h1 | h1
    · subst h1
      rw [filter_flatMap_nil f p rest
        (fun b hb => h b (List.mem_cons_of_mem _ hb)
          (fun hba => hnd.1 (hba ▸ hb))), List.append_nil]
    · have hca : c ≠ a := fun he => hnd.1 (he ▸ h1)
      rw [h c (List.mem_cons_self _ _) hca, List.nil_append]
      exact ih h1 hnd.2 (fun b hb hba => h b (List.mem_cons_of_mem _ hb) hba)

lemma sentMessages_group_filter_nil (adj : Graph) (domain : DomainInfo)
    (dst b : ℕ) (p : Msg → Bool) (hbne : b ≠ dst)
    (hp : ∀ m : Msg, p m = true → m.dst = dst) :
    ((if b = domain.rank then ([] : List Msg)
      else ⟨b, 0, [(sendBufferFor adj domain b).length]⟩ ::
        (if 0 < (sendBufferFor adj domain b).length
          then [⟨b, 1, sendBufferFor adj domain b⟩] else [])).filter p) = [] := by
  by_cases hbr : b = domain.rank
  · rw [if_pos hbr]; rfl
  · rw [if_neg hbr]
    rw [List.filter_cons_of_neg (fun hc => hbne (hp _ hc))]
    split
    · rw [List.filter_cons_of_neg (fun hc => hbne (hp _ hc))]; rfl
    · rfl

lemma sentMessages_filter (adj : Graph) (domain : DomainInfo) (dst : ℕ)
    (p : Msg → Bool) (hdst : dst < domain.numRanks) (hrank : dst ≠ domain.rank)
    (hp : ∀ m : Msg, p m = true → m.dst = dst) :
    (sentMessages adj domain).filter p =
      (⟨dst, 0, [(sendBufferFor adj domain dst).length]⟩ ::
        (if 0 < (sendBufferFor adj domain dst).length
          then [⟨dst, 1, sendBufferFor adj domain dst⟩] else [])).filter p := by
  unfold sentMessages
  rw [filter_flatMap_single _ _ _ dst (List.mem_range.mpr hdst) (List.nodup_range _)
    (fun b hb hbne => sentMessages_group_filter_nil adj domain dst b p hbne hp)]
  rw [if_neg hrank]

/-- C7: for a well-formed graph and any ordered pair of distinct workers
`(src, dst)`, worker `src` posts exactly one count message to `dst`
(tag 0, carrying the buffer length), exactly one payload message (tag 1,
carrying the buffer) when the buffer is nonempty and none otherwise; the
buffer has no duplicates, and each of its entries is a valid vertex id,
owned by `dst` per `findOwnerRank`, and referenced by an edge leaving
one of `src`'s boundary vertices. -/
theorem halo_message_contract (adj : Graph) (numWorkers src dst : ℕ)
    (d : DomainInfo) (buf : List ℕ)
    (hwf : WF adj) (hsrc : src < numWorkers) (hdst : dst < numWorkers)
    (hne : src ≠ dst)
    (hd : d = setupDomain adj.length src numWorkers)
    (hbuf : buf = sendBufferFor adj d dst) :
    (sentMessages adj d).filter (fun m => m.dst == dst && m.tag == 0) =
      [⟨dst, 0, [buf.length]⟩] ∧
    (sentMessages adj d).filter (fun m => m.dst == dst && m.tag == 1) =
      (if 0 < buf.length then [⟨dst, 1, buf⟩] else []) ∧
    buf.Nodup ∧
    (∀ v ∈ buf, v < adj.length ∧
      findOwnerRank v adj.length numWorkers = dst ∧
      ∃ b2, isBoundaryVertex b2 adj d = true ∧ v ∈ neighbors adj b2) := by
  have hdrank : d.rank = src := by rw [hd]; exact setupDomain_rank _ _ _
  have hdnum : d.numRanks = numWorkers := by rw [hd]; exact setupDomain_numRanks _ _ _
  have hdstrank : dst ≠ d.rank := by rw [hdrank]; exact fun he => hne he.symm
  have hdstlt : dst < d.numRanks := by rw [hdnum]; exact hdst
  have hbuf2 : buf = (externalVertices adj d).filter
      (fun v => findOwnerRank v adj.length d.numRanks == dst) := by
    rw [hbuf]
    unfold sendBufferFor
    rw [if_neg hdstrank]
  refine ⟨?_, ?_, ?_, ?_⟩
  · rw [sentMessages_filter adj d dst _ hdstlt hdstrank
      (fun m hm => by
        have := (Bool.and_eq_true _ _).mp hm
        exact eq_of_beq this.1)]
    rw [← hbuf, List.filter_cons_of_pos (by simp)]
    split
    · rw [List.filter_cons_of_neg (by simp)]
      rfl
    · rfl
  · rw [sentMessages_filter adj d dst _ hdstlt hdstrank
      (fun m hm => by
        have := (Bool.and_eq_true _ _).mp hm
        exact eq_of_beq this.1)]
    rw [← hbuf, List.filter_cons_of_neg (by simp)]
    split
    · rw [List.filter_cons_of_pos (by simp)]
      rfl
    · rfl
  · rw [hbuf2]
    exact (externalVertices_nodup adj d).filter _
  · intro v hv
    rw [hbuf2, List.mem_filter] at hv
    obtain ⟨hmem, hownb⟩ := hv
    have hown : findOwnerRank v adj.length d.numRanks = dst :=
      eq_of_beq hownb
    obtain ⟨b2, hb2mem, hvn, hnl⟩ := (mem_externalVertices adj d v).mp hmem
    have hb2bd : isBoundaryVertex b2 adj d = true :=
      (List.mem_filter.mp hb2mem).2
    exact ⟨neighbors_wf adj hwf b2 v hvn, by rw [← hdnum]; exact hown,
      b2, hb2bd, hvn⟩

/-- C7 witness: worker 0 of the C4 scenario sending to worker 1. -/
theorem halo_message_contract_witness :
    (WF ringGraph4 ∧ 0 < 2 ∧ 1 < 2 ∧ (0 : ℕ) ≠ 1) ∧
    ((sentMessages ringGraph4 (setupDomain 4 0 2)).filter
        (fun m => m.dst == 1 && m.tag == 0) =
      [⟨1, 0, [(sendBufferFor ringGraph4 (setupDomain 4 0 2) 1).length]⟩] ∧
    (sentMessages ringGraph4 (setupDomain 4 0 2)).filter
        (fun m => m.dst == 1 && m.tag == 1) =
      (if 0 < (sendBufferFor ringGraph4 (setupDomain 4 0 2) 1).length
        then [⟨1, 1, sendBufferFor ringGraph4 (setupDomain 4 0 2) 1⟩] else []) ∧
    (sendBufferFor ringGraph4 (setupDomain 4 0 2) 1).Nodup ∧
    (∀ v ∈ sendBufferFor ringGraph4 (setupDomain 4 0 2) 1, v < ringGraph4.length ∧
      findOwnerRank v ringGraph4.length 2 = 1 ∧
      ∃ b2, isBoundaryVertex b2 ringGraph4 (setupDomain 4 0 2) = true ∧
        v ∈ neighbors ringGraph4 b2)) :=
  ⟨⟨by unfold WF; decide, by decide, by decide, by decide⟩,
    halo_message_contract ringGraph4 2 0 1 (setupDomain 4 0 2)
      (sendBufferFor ringGraph4 (setupDomain 4 0 2) 1)
      (by unfold WF; decide) (by decide) (by decide) (by decide) rfl rfl⟩

/-!
Single-worker refinement development for C6.  With one worker the domain
is `[0, totalVertices)`, every vertex is local, no boundary vertices or
messages exist, and — provided the target short-circuit never fires —
`localDFS` performs exactly the recursion of serial.cpp's `dfsRec`.
-/

lemma setupDomain_single (tV : ℕ) :
    setupDomain tV 0 1 = ⟨0, 1, 0, tV, tV⟩ := by
  simp [setupDomain, Nat.mod_one, Nat.div_one]

lemma isLocal_single {tV v : ℕ} :
    isLocalVertex v ⟨0, 1, 0, tV, tV⟩ = true ↔ v < tV := by
  simp [isLocalVertex]

lemma boundary_single (adj : Graph) (hwf : WF adj) (v : ℕ) :
    isBoundaryVertex v adj ⟨0, 1, 0, adj.length, adj.length⟩ = false := by
  unfold isBoundaryVertex
  have hany : (neighbors adj v).any
      (fun n => !isLocalVertex n ⟨0, 1, 0, adj.length, adj.length⟩) = false := by
    rw [List.any_eq_false]
    intro n hn
    simp [isLocal_single.mpr (neighbors_wf adj hwf v n hn)]
  rw [hany, Bool.and_false]

lemma interiorVertices_single (adj : Graph) (hwf : WF adj) :
    interiorVertices adj ⟨0, 1, 0, adj.length, adj.length⟩ =
      List.range adj.length := by
  unfold interiorVertices domainVertices
  have h1 : List.range' 0 (adj.length - 0) = List.range adj.length := by
    rw [Nat.sub_zero, List.range_eq_range']
  rw [show (⟨0, 1, 0, adj.length, adj.length⟩ : DomainInfo).startVertex = 0 from rfl,
    show (⟨0, 1, 0, adj.length, adj.length⟩ : DomainInfo).endVertex = adj.length from rfl,
    h1]
  apply List.filter_eq_self.mpr
  intro v _
  rw [boundary_single adj hwf v]
  rfl

lemma boundaryVertices_single (adj : Graph) (hwf : WF adj) :
    localBoundaryVertices adj ⟨0, 1, 0, adj.length, adj.length⟩ = [] := by
  unfold localBoundaryVertices
  apply List.filter_eq_nil_iff.mpr
  intro v _
  rw [boundary_single adj hwf v]
  exact Bool.false_ne_true

lemma dfsNeighborsAux_single_eq_seq (adj : Graph)
    (g : DFSState → ℕ → DFSState × Bool)
    (gs : Finset ℕ × List ℕ → ℕ → Finset ℕ × List ℕ)
    (hg : ∀ st v, v < adj.length → v ∉ st.visited → st.found = false →
      g st v = (⟨(gs (st.visited, st.result) v).1,
        (gs (st.visited, st.result) v).2, st.bnd, false⟩, false)) :
    ∀ ns st, (∀ n ∈ ns, n < adj.length) → st.found = false →
      dfsNeighborsAux g ⟨0, 1, 0, adj.length, adj.length⟩ ns st =
        (⟨(seqNeighborsAux gs ns (st.visited, st.result)).1,
          (seqNeighborsAux gs ns (st.visited, st.result)).2, st.bnd, false⟩,
          false) := by
  intro ns
  induction ns with
  | nil =>
    intro st _ hfound
    cases st with
    | mk vis res bnd fnd =>
      simp only [dfsNeighborsAux, seqNeighborsAux]
      simp at hfound
      subst hfound
      rfl
  | cons n rest ih =>
    intro st hns hfound
    have hn : n < adj.length := hns n (List.mem_cons_self _ _)
    simp only [dfsNeighborsAux, seqNeighborsAux]
    rw [if_pos (isLocal_single.mpr hn)]
    by_cases hm : n ∈ st.visited
    · rw [if_pos hm, if_pos (show n ∈ (st.visited, st.result).1 from hm)]
      exact ih st (fun a ha => hns a (List.mem_cons_of_mem _ ha)) hfound
    · rw [if_neg hm, if_neg (show n ∉ (st.visited, st.result).1 from hm)]
      rw [hg st n hn hm hfound]
      exact ih _ (fun a ha => hns a (List.mem_cons_of_mem _ ha)) rfl

lemma localDFS_single_eq_seq (adj : Graph) (target : ℕ) (hwf : WF adj)
    (htarget : adj.length ≤ target) :
    ∀ fuel st v, v < adj.length → v ∉ st.visited → st.found = false →
      localDFS adj ⟨0, 1, 0, adj.length, adj.length⟩ target fuel st v =
        (⟨(seqDFSRec adj fuel (st.visited, st.result) v).1,
          (seqDFSRec adj fuel (st.visited, st.result) v).2, st.bnd, false⟩,
          false) := by
  intro fuel
  induction fuel with
  | zero =>
    intro st v _ _ hfound
    cases st with
    | mk vis res bnd fnd =>
      simp only [localDFS, seqDFSRec]
      simp at hfound
      subst hfound
      rfl
  | succ fuel ih =>
    intro st v hv hm hfound
    simp only [localDFS, seqDFSRec]
    rw [if_neg hm, if_neg (show ¬ v = target by omega)]
    exact dfsNeighborsAux_single_eq_seq adj _ _ ih (neighbors adj v)
      { st with visited := insert v st.visited, result := st.result ++ [v] }
      (neighbors_wf adj hwf v) hfound

lemma interiorLoop_single_eq_seq (adj : Graph) (target fuel : ℕ)
    (hwf : WF adj) (htarget : adj.length ≤ target) :
    ∀ roots st, (∀ n ∈ roots, n < adj.length) → st.found = false →
      interiorLoop adj ⟨0, 1, 0, adj.length, adj.length⟩ target fuel roots st =
        ⟨(roots.foldl (fun p i => if i ∈ p.1 then p else seqDFSRec adj fuel p i)
            (st.visited, st.result)).1,
          (roots.foldl (fun p i => if i ∈ p.1 then p else seqDFSRec adj fuel p i)
            (st.visited, st.result)).2, st.bnd, false⟩ := by
  intro roots
  induction roots with
  | nil =>
    intro st _ hfound
    cases st with
    | mk vis res bnd fnd =>
      simp only [interiorLoop, List.foldl_nil]
      simp at hfound
      subst hfound
      rfl
  | cons v vs ih =>
    intro st hns hfound
    have hv : v < adj.length := hns v (List.mem_cons_self _ _)
    simp only [interiorLoop, List.foldl_cons]
    by_cases hm : v ∈ st.visited
    · rw [if_neg (by simp [hm]), if_pos (show v ∈ (st.visited, st.result).1 from hm)]
      exact ih st (fun a ha => hns a (List.mem_cons_of_mem _ ha)) hfound
    · rw [if_pos ⟨hm, hfound⟩, if_neg (show v ∉ (st.visited, st.result).1 from hm)]
      rw [localDFS_single_eq_seq adj target hwf htarget fuel
        { st with bnd := ∅ } v hv hm hfound]
      exact ih _ (fun a ha => hns a (List.mem_cons_of_mem _ ha)) rfl

lemma payloadLoop_single (adj : Graph) (target fuel : ℕ)
    (recvBuffers : List (List ℕ)) (st : DFSState) :
    payloadLoop adj ⟨0, 1, 0, adj.length, adj.length⟩ target fuel
      recvBuffers st = st := by
  have h01 : List.range 1 = [0] := rfl
  simp [payloadLoop, h01]

/-- C6 counterexample: the claim fails as soon as the target short-circuit
fires.  On the 2-vertex edgeless graph with target 0, the single-worker
distributed run visits only `[0]` while the reference sequential DFS
visits `[0, 1]`; even the visited sets differ. -/
theorem singleWorker_seq_counterexample :
    (distributedRun [[], []] 1 0 3).map (fun o => o.result) = [[0]] ∧
    seqDFS [[], []] 3 = [0, 1] ∧
    ([0] : List ℕ).toFinset ≠ ([0, 1] : List ℕ).toFinset := by
  decide

/-- C6 amended: for a well-formed graph and a target outside the vertex
range (so the short-circuit never fires), the single-worker distributed
run posts no messages, produces an empty event trace, and its visited
sequence equals the reference sequential DFS of serial.cpp at stride 1
started from vertices in ascending order. -/
theorem singleWorker_refines_seq (adj : Graph) (target fuel : ℕ)
    (hwf : WF adj) (htarget : adj.length ≤ target) :
    distributedRun adj 1 target fuel =
      [{ events := [], result := seqDFS adj fuel, found := false }] := by
  unfold distributedRun
  have h01 : List.range 1 = [0] := rfl
  rw [h01, List.map_cons, List.map_nil]
  show [runWorker adj (setupDomain adj.length 0 1) target
      ((List.range 1).map fun src => if src = 0 then []
        else sendBufferFor adj (setupDomain adj.length src 1) 0) fuel] = _
  rw [setupDomain_single]
  congr 1
  have hst1 := interiorLoop_single_eq_seq adj target fuel hwf htarget
    (List.range adj.length) initState
    (fun n hn => List.mem_range.mp hn) rfl
  have hst3 : finalState adj ⟨0, 1, 0, adj.length, adj.length⟩ target
      ((List.range 1).map fun src => if src = 0 then []
        else sendBufferFor adj (setupDomain adj.length src 1) 0) fuel =
      ⟨((List.range adj.length).foldl
          (fun p i => if i ∈ p.1 then p else seqDFSRec adj fuel p i)
          (initState.visited, initState.result)).1,
        ((List.range adj.length).foldl
          (fun p i => if i ∈ p.1 then p else seqDFSRec adj fuel p i)
          (initState.visited, initState.result)).2, ∅, false⟩ := by
    unfold finalState boundaryState interiorState
    rw [boundaryVertices_single adj hwf, interiorVertices_single adj hwf]
    show payloadLoop _ _ _ _ _
      (interiorLoop adj ⟨0, 1, 0, adj.length, adj.length⟩ target fuel
        (List.range adj.length) initState) = _
    rw [hst1, payloadLoop_single]
    rfl
  have heta : runWorker adj ⟨0, 1, 0, adj.length, adj.length⟩ target
      ((List.range 1).map fun src => if src = 0 then []
        else sendBufferFor adj (setupDomain adj.length src 1) 0) fuel =
      ⟨(runWorker adj ⟨0, 1, 0, adj.length, adj.length⟩ target
          ((List.range 1).map fun src => if src = 0 then []
            else sendBufferFor adj (setupDomain adj.length src 1) 0) fuel).events,
        (runWorker adj ⟨0, 1, 0, adj.length, adj.length⟩ target
          ((List.range 1).map fun src => if src = 0 then []
            else sendBufferFor adj (setupDomain adj.length src 1) 0) fuel).result,
        (runWorker adj ⟨0, 1, 0, adj.length, adj.length⟩ target
          ((List.range 1).map fun src => if src = 0 then []
            else sendBufferFor adj (setupDomain adj.length src 1) 0) fuel).found⟩ :=
    rfl
  rw [heta, runWorker_result, runWorker_found, hst3]
  rfl

/-- C6 amended witness: a concrete well-formed 2-vertex graph with the
target outside the vertex range. -/
theorem singleWorker_refines_seq_witness :
    (WF [[1], []] ∧ ([[1], []] : Graph).length ≤ 2) ∧
    distributedRun [[1], []] 1 2 4 =
      [{ events := [], result := seqDFS [[1], []] 4, found := false }] :=
  ⟨⟨by unfold WF; decide, by decide⟩,
    singleWorker_refines_seq [[1], []] 2 4 (by unfold WF; decide) (by decide)⟩

/-- C5 witness: the target vertex 3 of the C4 scenario, reached from the
initial state, and an already-found state for the loop part. -/
theorem target_short_circuit_witness :
    ((3 : ℕ) ∉ initState.visited ∧ (3 : ℕ) = 3 ∧
      (⟨∅, [], ∅, true⟩ : DFSState).found = true) ∧
    (localDFS ringGraph4 (setupDomain 4 1 2) 3 5 initState 3 =
      ({ initState with visited := insert 3 initState.visited,
                        result := initState.result ++ [3], found := true }, true) ∧
      interiorLoop ringGraph4 (setupDomain 4 1 2) 3 4 [0, 1, 2, 3]
        ⟨∅, [], ∅, true⟩ = ⟨∅, [], ∅, true⟩) :=
  ⟨⟨by decide, rfl, rfl⟩,
    target_short_circuit ringGraph4 (setupDomain 4 1 2) 3 4 initState
      ⟨∅, [], ∅, true⟩ 3 [0, 1, 2, 3] (by decide) rfl rfl⟩

end WeakScaling
